import Mathlib

/-!
# Verification of the clipboard-manager history store and monitor loop

This file gives a shallow embedding of `src/clipboard-manager-simple.py`
(the colorized variant is behaviourally identical for the core logic).
Python strings are modelled as `List Char`; the persisted history file is
one such string.  `str.split`, `str.strip` and `str.join` are modelled
character by character with the semantics of the Python builtins, and the
`ClipboardManager` methods are translated on top of them.
-/

/-- A Python string, modelled as its list of characters. -/
abbrev PyStr := List Char

/-- The separator token `self.separator = "---CLIPBOARD_ENTRY_SEPARATOR---"`. -/
def SEP : PyStr := "---CLIPBOARD_ENTRY_SEPARATOR---".toList

/-- A single newline, as written between an entry and the separator. -/
def NL : PyStr := ['\n']

/-- Fuel-driven worker for Python's `str.split(sep)` with a non-empty
separator: scan left to right, cut at each leftmost occurrence of `sep`.
The fuel is only there to make the recursion structural; `pySplit` always
supplies enough. -/
def pySplitGo (sep : PyStr) : Nat → PyStr → List PyStr
  | _, [] => [[]]
  | 0, l => [l]
  | fuel + 1, c :: cs =>
    if sep ≠ [] ∧ sep.isPrefixOf (c :: cs) then
      [] :: pySplitGo sep fuel (List.drop (sep.length - 1) cs)
    else
      match pySplitGo sep fuel cs with
      | [] => []
      | f :: r => (c :: f) :: r

/-- Python's `s.split(sep)` for a non-empty `sep` (as used by the program;
for `sep = []` this degenerates to the identity-like `[l]`). -/
def pySplit (sep l : PyStr) : List PyStr := pySplitGo sep l.length l

/-- Python's `sep.join(parts)`. -/
def pyJoin (sep : PyStr) : List PyStr → PyStr
  | [] => []
  | [x] => x
  | x :: y :: r => x ++ sep ++ pyJoin sep (y :: r)

/-- The characters Python's `str.strip()` removes: exactly the code points
for which `str.isspace()` holds (CPython's whitespace table: 0x09-0x0d,
0x1c-0x1f, space, NEL, NBSP, and the Unicode space separators). -/
def isPySpace (c : Char) : Bool :=
  decide ((0x09 ≤ c.toNat ∧ c.toNat ≤ 0x0d) ∨ (0x1c ≤ c.toNat ∧ c.toNat ≤ 0x1f)
    ∨ c.toNat = 0x20 ∨ c.toNat = 0x85 ∨ c.toNat = 0xa0 ∨ c.toNat = 0x1680
    ∨ (0x2000 ≤ c.toNat ∧ c.toNat ≤ 0x200a) ∨ c.toNat = 0x2028 ∨ c.toNat = 0x2029
    ∨ c.toNat = 0x202f ∨ c.toNat = 0x205f ∨ c.toNat = 0x3000)

/-- Python's `s.strip()`: drop leading and trailing whitespace. -/
def pyStrip (l : PyStr) : PyStr :=
  ((l.dropWhile isPySpace).reverse.dropWhile isPySpace).reverse

/-- `ClipboardManager.trim_history`: re-read the file, split on the
separator, and if there are more than `max_entries` blocks overwrite the
file with the first `max_entries` blocks joined by the separator. -/
def trimHistory (maxEntries : Nat) (file : PyStr) : PyStr :=
  let entries := pySplit SEP file
  if maxEntries < entries.length then pyJoin SEP (entries.take maxEntries)
  else file

/-- `ClipboardManager.add_to_history`, with the clipboard content passed in
explicitly and the history file threaded as state.  Returns the Python
return value together with the file contents after the call (including the
trailing `trim_history`). -/
def addToHistory (maxEntries : Nat) (content file : PyStr) : Bool × PyStr :=
  if content = [] then (false, file)
  else
    let entries := pySplit SEP file
    if entries ≠ [] ∧ pyStrip (entries.headD []) = pyStrip content then
      (false, file)
    else
      (true, trimHistory maxEntries (content ++ NL ++ SEP ++ NL ++ file))

/-- `ClipboardManager.clear_history`: truncate the file to zero length. -/
def clearHistory (_file : PyStr) : PyStr := []

/-- The entry-collection loop of `ClipboardManager.show_history`: for each
block, if it strips to something non-empty, append the stripped block to
`full_entries`. -/
def collectEntries : List PyStr → List PyStr
  | [] => []
  | e :: rest =>
    if pyStrip e ≠ [] then pyStrip e :: collectEntries rest
    else collectEntries rest

/-- The `full_entries` list that `show_history` builds from the file; this
is the `list()` view of the history store. -/
def fullEntries (file : PyStr) : List PyStr :=
  collectEntries (pySplit SEP file)

/-- The selection branch of `show_history`: a 1-based choice `i` is turned
into `index = i - 1` and accepted iff `0 <= index < len(full_entries)`;
`none` models the `Invalid number` path where nothing is copied. -/
def selectEntry (entries : List PyStr) (choice : Int) : Option PyStr :=
  let index := choice - 1
  if 0 ≤ index ∧ index < (entries.length : Int) then entries[index.toNat]?
  else none

/-- The possible outcomes of the `subprocess.run(["xclip", ...])` call in
`get_clipboard_content`. -/
inductive ReadOutcome where
  | completed (returncode : Int) (stdout : PyStr)
  | subprocessError
  | timeoutExpired
deriving DecidableEq

/-- `ClipboardManager.get_clipboard_content`: return `stdout` on a zero
exit code and the empty string on a non-zero exit code, a subprocess
error, or a timeout. -/
def getClipboardContent : ReadOutcome → PyStr
  | .completed rc out => if rc = 0 then out else []
  | .subprocessError => []
  | .timeoutExpired => []

/-- The state of the `monitor` loop between ticks. -/
structure MonState where
  lastContent : PyStr
  retryCount : Nat
  file : PyStr
  stopped : Bool
deriving DecidableEq

/-- One tick of `monitor` in which `get_clipboard_content` returned `c`
without raising: reset `retry_count`, and if `c` is non-empty and differs
from `last_content`, call `add_to_history` and set `last_content = c`.
The boolean records whether `add_to_history` was called. -/
def monitorTick (s : MonState) (c : PyStr) : MonState × Bool :=
  let s1 : MonState := { s with retryCount := 0 }
  if c ≠ [] ∧ c ≠ s1.lastContent then
    ({ s1 with file := (addToHistory 5 c s1.file).2, lastContent := c }, true)
  else (s1, false)

/-- What one iteration of the `while True` loop does, seen from the state:
either `get_clipboard_content` completes with outcome `o` (returning the
empty string on a swallowed timeout or subprocess failure) and the rest of
the body runs without raising; or the clipboard call itself raises and the
exception escapes into the monitor's handler before `retry_count = 0`
runs; or the read completed and the counter was reset, and a later
statement of the body (the history write or a log write) raised, leaving
the history file in some state `file'`. -/
inductive TickEvent where
  | read (o : ReadOutcome)
  | exnDuringRead
  | exnAfterRead (file' : PyStr)
deriving DecidableEq

/-- One iteration of the `monitor` loop (`max_retries = 5`).  A completed
read goes through `monitorTick` on the returned string.  An escaped
exception increments `retry_count` - from its previous value when the
clipboard call itself raised, from the just-executed reset to zero when
the exception came after the read - and breaks out of the loop when the
counter reaches `max_retries`.  A stopped loop ignores further events. -/
def monitorStep (s : MonState) (ev : TickEvent) : MonState :=
  if s.stopped then s
  else
    match ev with
    | .read o => (monitorTick s (getClipboardContent o)).1
    | .exnDuringRead =>
      if 5 ≤ s.retryCount + 1 then
        { s with retryCount := s.retryCount + 1, stopped := true }
      else { s with retryCount := s.retryCount + 1 }
    | .exnAfterRead f2 =>
      if 5 ≤ 0 + 1 then
        { s with retryCount := 0 + 1, file := f2, stopped := true }
      else { s with retryCount := 0 + 1, file := f2 }

/-- The state `monitor` starts from: `last_content = ""`, `retry_count = 0`,
running, over whatever history file is on disk. -/
def initMonState (file : PyStr) : MonState :=
  { lastContent := [], retryCount := 0, file := file, stopped := false }

/-- Run the monitor loop over a finite trace of tick events. -/
def runMonitor (s : MonState) (evs : List TickEvent) : MonState :=
  evs.foldl monitorStep s

/-- A mutating CLI-level operation on the history store. -/
inductive HistOp where
  | add (c : PyStr)
  | clear
deriving DecidableEq

/-- Effect of one mutating operation on the persisted file. -/
def applyOp (file : PyStr) : HistOp → PyStr
  | .add c => (addToHistory 5 c file).2
  | .clear => clearHistory file

/-- The file contents after a sequence of mutating operations starting
from an empty history file. -/
def runOps (ops : List HistOp) : PyStr := ops.foldl applyOp []

/-- Somewhere in the trace an iteration with an escaped exception is
followed by four iterations whose clipboard call itself raises: the only
pattern that drives `retry_count` up to `max_retries = 5`. -/
def stopWindow (evs : List TickEvent) : Prop :=
  ∃ i e, evs[i]? = some e
    ∧ (e = TickEvent.exnDuringRead ∨ ∃ f, e = TickEvent.exnAfterRead f)
    ∧ ∀ j, j < 4 → evs[i + 1 + j]? = some TickEvent.exnDuringRead

/-! ## Basic facts about the split worker -/

theorem pySplitGo_fuel (sep : PyStr) :
    ∀ fuel₁ fuel₂ l, l.length ≤ fuel₁ → l.length ≤ fuel₂ →
      pySplitGo sep fuel₁ l = pySplitGo sep fuel₂ l := by
  intro fuel₁
  induction fuel₁ with
  | zero =>
    intro fuel₂ l h1 _
    have hl : l = [] := List.eq_nil_of_length_eq_zero (Nat.le_zero.mp h1)
    subst hl
    cases fuel₂ <;> rfl
  | succ f ih =>
    intro fuel₂ l h1 h2
    cases l with
    | nil => cases fuel₂ <;> rfl
    | cons c cs =>
      cases fuel₂ with
      | zero => simp at h2
      | succ g =>
        have hf : cs.length ≤ f := by simpa using h1
        have hg : cs.length ≤ g := by simpa using h2
        simp only [pySplitGo]
        by_cases hc : sep ≠ [] ∧ sep.isPrefixOf (c :: cs)
        · simp only [if_pos hc]
          have hd : (List.drop (sep.length - 1) cs).length ≤ f := by
            have := List.length_drop (sep.length - 1) cs
            omega
          have hd' : (List.drop (sep.length - 1) cs).length ≤ g := by
            have := List.length_drop (sep.length - 1) cs
            omega
          rw [ih g _ hd hd']
        · simp only [if_neg hc]
          rw [ih g cs hf hg]

theorem pySplit_cons (sep : PyStr) (c : Char) (cs : PyStr) :
    pySplit sep (c :: cs) =
      if sep ≠ [] ∧ sep.isPrefixOf (c :: cs) then
        [] :: pySplit sep (List.drop (sep.length - 1) cs)
      else
        match pySplit sep cs with
        | [] => []
        | f :: r => (c :: f) :: r := by
  show pySplitGo sep (cs.length + 1) (c :: cs) = _
  simp only [pySplitGo]
  by_cases hc : sep ≠ [] ∧ sep.isPrefixOf (c :: cs)
  · simp only [if_pos hc]
    have hd : (List.drop (sep.length - 1) cs).length ≤ cs.length := by
      have := List.length_drop (sep.length - 1) cs
      omega
    rw [pySplitGo_fuel sep cs.length (List.drop (sep.length - 1) cs).length _ hd le_rfl]
    rfl
  · simp only [if_neg hc]
    rfl

theorem pySplit_ne_nil (sep l : PyStr) : pySplit sep l ≠ [] := by
  induction l with
  | nil => simp [pySplit, pySplitGo]
  | cons c cs ih =>
    rw [pySplit_cons]
    by_cases hc : sep ≠ [] ∧ sep.isPrefixOf (c :: cs)
    · simp [hc]
    · simp only [if_neg hc]
      cases h : pySplit sep cs with
      | nil => exact absurd h ih
      | cons f r => simp

/-- A string that avoids the first character of the separator is split
into a single fragment. -/
theorem pySplit_singleton_of_head_notin {s0 : Char} {ss : PyStr} :
    ∀ l : PyStr, s0 ∉ l → pySplit (s0 :: ss) l = [l] := by
  intro l
  induction l with
  | nil => intro _; rfl
  | cons c cs ih =>
    intro h
    rw [pySplit_cons]
    have hpre : ¬ (s0 :: ss).isPrefixOf (c :: cs) = true := by
      intro hp
      rw [List.isPrefixOf_iff_prefix, List.cons_prefix_cons] at hp
      exact h (by rw [hp.1]; exact List.mem_cons_self c cs)
    rw [if_neg (fun hcond => hpre hcond.2)]
    rw [ih (fun hm => h (List.mem_cons_of_mem c hm))]

theorem pySplit_nil_sep (l : PyStr) : pySplit [] l = [l] := by
  induction l with
  | nil => rfl
  | cons c cs ih =>
    rw [pySplit_cons]
    simp only [ne_eq, not_true_eq_false, false_and, if_false, ih]

theorem sep_ne_nil_of_two {sep t : PyStr} {b b2 : PyStr} {bs : List PyStr}
    (h : pySplit sep t = b :: b2 :: bs) : sep ≠ [] := by
  intro hsep
  subst hsep
  rw [pySplit_nil_sep] at h
  simp at h

theorem pySplit_sep_append {sep : PyStr} (hsep : sep ≠ []) (b : PyStr) :
    pySplit sep (sep ++ b) = [] :: pySplit sep b := by
  cases sep with
  | nil => exact absurd rfl hsep
  | cons s ss =>
    have : (s :: ss) ++ b = s :: (ss ++ b) := rfl
    rw [this, pySplit_cons]
    have hpre : (s :: ss).isPrefixOf (s :: (ss ++ b)) = true := by
      rw [List.isPrefixOf_iff_prefix]
      exact List.prefix_append (s :: ss) b
    rw [if_pos ⟨hsep, hpre⟩]
    have hd : List.drop ((s :: ss).length - 1) (ss ++ b) = b := by
      simp only [List.length_cons, Nat.add_sub_cancel]
      exact List.drop_left ss b
    rw [hd]

theorem pySplit_sep_self {sep : PyStr} (hsep : sep ≠ []) :
    pySplit sep sep = [[], []] := by
  have := pySplit_sep_append hsep []
  simpa using this

/-- If the first occurrence of `sep` in `a ++ sep` is the appended one,
then splitting `a ++ sep ++ b` cuts exactly after `a`. -/
theorem pySplit_prepend {sep : PyStr} :
    ∀ a b : PyStr, pySplit sep (a ++ sep) = [a, []] →
      pySplit sep (a ++ sep ++ b) = a :: pySplit sep b := by
  intro a
  induction a with
  | nil =>
    intro b h
    have hsep : sep ≠ [] := sep_ne_nil_of_two h
    simpa using pySplit_sep_append hsep b
  | cons c cs ih =>
    intro b h
    have hsep : sep ≠ [] := sep_ne_nil_of_two h
    have hcons : (c :: cs) ++ sep = c :: (cs ++ sep) := rfl
    rw [hcons, pySplit_cons] at h
    by_cases hpre : sep.isPrefixOf (c :: (cs ++ sep)) = true
    · rw [if_pos ⟨hsep, hpre⟩] at h
      simp at h
    · rw [if_neg (by simp [hpre])] at h
      have hne := pySplit_ne_nil sep (cs ++ sep)
      cases hsplit : pySplit sep (cs ++ sep) with
      | nil => exact absurd hsplit hne
      | cons f r =>
        rw [hsplit] at h
        simp only [List.cons.injEq, true_and] at h
        have h' : pySplit sep (cs ++ sep) = [cs, []] := by
          rw [hsplit, h.1, h.2]
        have ihb := ih b h'
        have hcons2 : (c :: cs) ++ sep ++ b = c :: (cs ++ sep ++ b) := by simp
        rw [hcons2, pySplit_cons]
        have hpre2 : ¬ sep.isPrefixOf (c :: (cs ++ sep ++ b)) = true := by
          intro hp
          apply hpre
          rw [List.isPrefixOf_iff_prefix] at hp ⊢
          have hlen : sep.length ≤ (c :: (cs ++ sep)).length := by
            simp [List.length_append]
            omega
          have hassoc : c :: (cs ++ sep ++ b) = (c :: (cs ++ sep)) ++ b := by simp
          rw [hassoc] at hp
          exact List.prefix_of_prefix_length_le hp
            (List.prefix_append (c :: (cs ++ sep)) b) hlen
        rw [if_neg (fun hcond => hpre2 hcond.2)]
        rw [ihb]

/-- A fragment whose first separator occurrence in `a ++ sep` is the
appended one contains no separator itself. -/
theorem pySplit_singleton_of_headclean {sep : PyStr} :
    ∀ a : PyStr, pySplit sep (a ++ sep) = [a, []] → pySplit sep a = [a] := by
  intro a
  induction a with
  | nil => intro _; rfl
  | cons c cs ih =>
    intro h
    have hsep : sep ≠ [] := sep_ne_nil_of_two h
    have hcons : (c :: cs) ++ sep = c :: (cs ++ sep) := rfl
    rw [hcons, pySplit_cons] at h
    by_cases hpre : sep.isPrefixOf (c :: (cs ++ sep)) = true
    · rw [if_pos ⟨hsep, hpre⟩] at h
      simp at h
    · rw [if_neg (fun hcond => hpre hcond.2)] at h
      have hne := pySplit_ne_nil sep (cs ++ sep)
      cases hsplit : pySplit sep (cs ++ sep) with
      | nil => exact absurd hsplit hne
      | cons f r =>
        rw [hsplit] at h
        simp only [List.cons.injEq, true_and] at h
        have h' : pySplit sep (cs ++ sep) = [cs, []] := by
          rw [hsplit, h.1, h.2]
        have ihcs := ih h'
        rw [pySplit_cons]
        have hpre' : ¬ sep.isPrefixOf (c :: cs) = true := by
          intro hp
          apply hpre
          rw [List.isPrefixOf_iff_prefix] at hp ⊢
          exact hp.trans (by simp [hcons] )
        rw [if_neg (fun hcond => hpre' hcond.2), ihcs]

/-- Appending a character that does not occur in the separator keeps a
separator-free string headclean: the first occurrence of `sep` in
`x ++ [c] ++ sep` is the appended one. -/
theorem pySplit_append_char {sep : PyStr} (hsep : sep ≠ []) {c : Char} (hc : c ∉ sep) :
    ∀ x : PyStr, pySplit sep x = [x] → pySplit sep (x ++ [c] ++ sep) = [x ++ [c], []] := by
  intro x
  induction x with
  | nil =>
    intro _
    have hcons : ([] : PyStr) ++ [c] ++ sep = c :: sep := rfl
    rw [hcons, pySplit_cons]
    have hpre : ¬ sep.isPrefixOf (c :: sep) = true := by
      intro hp
      rw [List.isPrefixOf_iff_prefix] at hp
      cases sep with
      | nil => exact hsep rfl
      | cons s ss =>
        rw [List.cons_prefix_cons] at hp
        exact hc (hp.1 ▸ List.mem_cons_self s ss)
    rw [if_neg (fun hcond => hpre hcond.2), pySplit_sep_self hsep]
    simp
  | cons a as ih =>
    intro hx
    rw [pySplit_cons] at hx
    by_cases hpre : sep.isPrefixOf (a :: as) = true
    · rw [if_pos ⟨hsep, hpre⟩] at hx
      simp at hx
    · rw [if_neg (fun hcond => hpre hcond.2)] at hx
      have hne := pySplit_ne_nil sep as
      cases hsplit : pySplit sep as with
      | nil => exact absurd hsplit hne
      | cons f r =>
        rw [hsplit] at hx
        simp only [List.cons.injEq, true_and] at hx
        have has : pySplit sep as = [as] := by rw [hsplit, hx.1, hx.2]
        have ihas := ih has
        have hcons : (a :: as) ++ [c] ++ sep = a :: (as ++ [c] ++ sep) := by simp
        rw [hcons, pySplit_cons]
        have hpre2 : ¬ sep.isPrefixOf (a :: (as ++ [c] ++ sep)) = true := by
          intro hp
          rw [List.isPrefixOf_iff_prefix] at hp
          by_cases hlen : sep.length ≤ (a :: as).length
          · apply hpre
            rw [List.isPrefixOf_iff_prefix]
            have hassoc : a :: (as ++ [c] ++ sep) = (a :: as) ++ ([c] ++ sep) := by simp
            rw [hassoc] at hp
            exact List.prefix_of_prefix_length_le hp
              (List.prefix_append (a :: as) ([c] ++ sep)) hlen
          · apply hc
            push_neg at hlen
            have hassoc : a :: (as ++ [c] ++ sep) = (a :: as) ++ ([c] ++ sep) := by simp
            rw [hassoc] at hp
            have hksep : (a :: as).length < sep.length := hlen
            have hmem : c ∈ ((a :: as) ++ ([c] ++ sep)).take sep.length := by
              rw [List.take_append_eq_append_take]
              apply List.mem_append_right
              cases hm : sep.length - (a :: as).length with
              | zero => omega
              | succ m =>
                have hcc : ([c] ++ sep) = c :: sep := rfl
                rw [hcc, List.take_succ_cons]
                exact List.mem_cons_self c _
            rw [List.prefix_iff_eq_take] at hp
            rw [← hp] at hmem
            exact hmem
        rw [if_neg (fun hcond => hpre2 hcond.2), ihas]
        simp

/-- Inversion for a split with at least two fragments: the input is the
head fragment, one separator, and a remainder that splits into the tail;
moreover the head fragment is headclean. -/
theorem pySplit_decomp {sep : PyStr} :
    ∀ t b : PyStr, ∀ tail : List PyStr, tail ≠ [] → pySplit sep t = b :: tail →
      ∃ rest, t = b ++ sep ++ rest ∧ pySplit sep rest = tail ∧
        pySplit sep (b ++ sep) = [b, []] := by
  intro t
  induction t with
  | nil =>
    intro b tail ht h
    have h' : ([[]] : List PyStr) = b :: tail := h
    cases tail with
    | nil => exact absurd rfl ht
    | cons x xs => simp at h'
  | cons c cs ih =>
    intro b tail ht h
    obtain ⟨b2, bs, rfl⟩ : ∃ b2 bs, tail = b2 :: bs := by
      cases tail with
      | nil => exact absurd rfl ht
      | cons x xs => exact ⟨x, xs, rfl⟩
    have hsep : sep ≠ [] := sep_ne_nil_of_two h
    rw [pySplit_cons] at h
    by_cases hpre : sep.isPrefixOf (c :: cs) = true
    · rw [if_pos ⟨hsep, hpre⟩] at h
      simp only [List.cons.injEq] at h
      refine ⟨List.drop (sep.length - 1) cs, ?_, ?_, ?_⟩
      · rw [List.isPrefixOf_iff_prefix, List.prefix_iff_eq_append] at hpre
        cases sep with
        | nil => exact absurd rfl hsep
        | cons s ss =>
          have hdrop : List.drop (s :: ss).length (c :: cs)
              = List.drop ((s :: ss).length - 1) cs := by
            simp
          rw [hdrop] at hpre
          rw [← h.1]
          simpa using hpre.symm
      · exact h.2
      · rw [← h.1]
        simpa using pySplit_sep_append hsep []
    · rw [if_neg (fun hcond => hpre hcond.2)] at h
      cases hsplit : pySplit sep cs with
      | nil => exact absurd hsplit (pySplit_ne_nil sep cs)
      | cons f r =>
        rw [hsplit] at h
        simp only [List.cons.injEq] at h
        have hcs : pySplit sep cs = f :: (b2 :: bs) := by rw [hsplit, h.2]
        obtain ⟨rest, hrest1, hrest2, hrest3⟩ := ih f (b2 :: bs) (by simp) hcs
        refine ⟨rest, ?_, hrest2, ?_⟩
        · rw [← h.1, hrest1]
          simp
        · rw [← h.1]
          have hcons : (c :: f) ++ sep = c :: (f ++ sep) := rfl
          rw [hcons, pySplit_cons]
          have hpre2 : ¬ sep.isPrefixOf (c :: (f ++ sep)) = true := by
            intro hp
            apply hpre
            rw [List.isPrefixOf_iff_prefix] at hp ⊢
            have hview : c :: cs = (c :: (f ++ sep)) ++ rest := by
              rw [hrest1]
              simp
            rw [hview]
            exact hp.trans (List.prefix_append _ _)
          rw [if_neg (fun hcond => hpre2 hcond.2), hrest3]

/-- Splitting is stable under re-joining a non-final initial segment of the
fragments: if `pySplit sep t = bs1 ++ bs2` with `bs1, bs2` non-empty, then
joining `bs1` back with the separator splits into exactly `bs1`. -/
theorem pySplit_join_initial {sep : PyStr} :
    ∀ bs1 : List PyStr, ∀ t : PyStr, ∀ bs2 : List PyStr, bs1 ≠ [] → bs2 ≠ [] →
      pySplit sep t = bs1 ++ bs2 → pySplit sep (pyJoin sep bs1) = bs1 := by
  intro bs1
  induction bs1 with
  | nil => intro t bs2 h1 _ _; exact absurd rfl h1
  | cons b bs1' ih =>
    intro t bs2 _ h2 h
    cases bs1' with
    | nil =>
      obtain ⟨rest, _, _, hclean⟩ := pySplit_decomp t b bs2 h2 h
      have : pyJoin sep [b] = b := rfl
      rw [this]
      exact pySplit_singleton_of_headclean b hclean
    | cons b2 bs1'' =>
      have htail : (b2 :: bs1'') ++ bs2 ≠ [] := by simp
      obtain ⟨rest, _, hrest2, hclean⟩ := pySplit_decomp t b ((b2 :: bs1'') ++ bs2) htail h
      have ihrest := ih rest bs2 (by simp) h2 hrest2
      have hjoin : pyJoin sep (b :: b2 :: bs1'') = b ++ sep ++ pyJoin sep (b2 :: bs1'') := rfl
      rw [hjoin, pySplit_prepend _ _ hclean, ihrest]

/-! ## Facts about strip, collect and trim -/

theorem pyStrip_append_space {c : Char} (hc : isPySpace c = true) (y : PyStr) :
    pyStrip (y ++ [c]) = pyStrip y := by
  unfold pyStrip
  rw [List.dropWhile_append]
  by_cases hy : (y.dropWhile isPySpace).isEmpty = true
  · rw [if_pos hy]
    rw [List.isEmpty_iff] at hy
    rw [hy]
    simp [List.dropWhile_cons, hc]
  · rw [if_neg hy]
    rw [List.reverse_append]
    simp only [List.reverse_cons, List.reverse_nil, List.nil_append,
      List.singleton_append]
    rw [List.dropWhile_cons_of_pos hc]

/-- A string strips to the empty string iff all of its characters are
whitespace. -/
theorem pyStrip_eq_nil_iff (l : PyStr) :
    pyStrip l = [] ↔ ∀ c ∈ l, isPySpace c = true := by
  unfold pyStrip
  constructor
  · intro h
    have h1 : (l.dropWhile isPySpace).reverse.dropWhile isPySpace = [] := by
      simpa using h
    rw [List.dropWhile_eq_nil_iff] at h1
    intro c hc
    have hsplit2 : c ∈ l.takeWhile isPySpace ++ l.dropWhile isPySpace := by
      rw [List.takeWhile_append_dropWhile]
      exact hc
    rcases List.mem_append.mp hsplit2 with h2 | h2
    · exact List.mem_takeWhile_imp h2
    · exact h1 c (List.mem_reverse.mpr h2)
  · intro h
    have h1 : l.dropWhile isPySpace = [] := List.dropWhile_eq_nil_iff.mpr h
    rw [h1]
    rfl

/-- A whitespace-only string contains no separator occurrence, since the
separator starts with a dash. -/
theorem whitespace_sepfree {ws : PyStr} (h : ∀ c ∈ ws, isPySpace c = true) :
    pySplit SEP ws = [ws] := by
  have hSEP : SEP = '-' :: List.tail SEP := by decide
  rw [hSEP]
  apply pySplit_singleton_of_head_notin
  intro hm
  exact absurd (h '-' hm) (by decide)

theorem collectEntries_eq_filter (bs : List PyStr) :
    collectEntries bs = (bs.map pyStrip).filter (fun e => !e.isEmpty) := by
  induction bs with
  | nil => rfl
  | cons e rest ih =>
    unfold collectEntries
    by_cases he : pyStrip e ≠ []
    · rw [if_pos he, ih]
      simp only [List.map_cons, List.filter_cons]
      rw [if_pos (by simpa [List.isEmpty_iff] using he)]
    · rw [if_neg he, ih]
      simp only [List.map_cons, List.filter_cons]
      rw [if_neg (by simpa [List.isEmpty_iff] using he)]

theorem collectEntries_length_le (bs : List PyStr) :
    (collectEntries bs).length ≤ bs.length := by
  rw [collectEntries_eq_filter]
  calc ((bs.map pyStrip).filter (fun e => !e.isEmpty)).length
      ≤ (bs.map pyStrip).length := List.length_filter_le _ _
    _ = bs.length := List.length_map _ _

theorem SEP_ne_nil : SEP ≠ [] := by decide

theorem newline_not_mem_SEP : '\n' ∉ SEP := by decide

theorem pySplit_trimHistory_le {m : Nat} (hm : 0 < m) (file : PyStr) :
    (pySplit SEP (trimHistory m file)).length ≤ m := by
  unfold trimHistory
  by_cases hlen : m < (pySplit SEP file).length
  · simp only [if_pos hlen]
    have htakelen : ((pySplit SEP file).take m).length = m := by
      rw [List.length_take]
      omega
    have htake : (pySplit SEP file).take m ≠ [] := by
      intro hnil
      rw [hnil] at htakelen
      simp at htakelen
      omega
    have hdroplen : ((pySplit SEP file).drop m).length = (pySplit SEP file).length - m :=
      List.length_drop m _
    have hdrop : (pySplit SEP file).drop m ≠ [] := by
      intro hnil
      rw [hnil] at hdroplen
      simp at hdroplen
      omega
    have hjoin := pySplit_join_initial ((pySplit SEP file).take m) file
      ((pySplit SEP file).drop m) htake hdrop (by rw [List.take_append_drop])
    rw [hjoin, htakelen]
  · simp only [if_neg hlen]
    omega

theorem addToHistory_split_le {m : Nat} (hm : 0 < m) (c file : PyStr) :
    (pySplit SEP ((addToHistory m c file).2)).length
      ≤ max m (pySplit SEP file).length := by
  unfold addToHistory
  by_cases h1 : c = []
  · simp only [if_pos h1]
    exact le_max_right _ _
  · simp only [if_neg h1]
    by_cases h2 : pySplit SEP file ≠ [] ∧
        pyStrip ((pySplit SEP file).headD []) = pyStrip c
    · simp only [if_pos h2]
      exact le_max_right _ _
    · simp only [if_neg h2]
      exact le_trans (pySplit_trimHistory_le hm _) (le_max_left _ _)

/-! ## Branch analysis of `add_to_history` -/

theorem addToHistory_false_state {m : Nat} {c file : PyStr}
    (h : (addToHistory m c file).1 = false) : addToHistory m c file = (false, file) := by
  unfold addToHistory at h ⊢
  by_cases h1 : c = []
  · rw [if_pos h1]
  · rw [if_neg h1] at h ⊢
    by_cases h2 : pySplit SEP file ≠ [] ∧
        pyStrip ((pySplit SEP file).headD []) = pyStrip c
    · rw [if_pos h2]
    · rw [if_neg h2] at h
      simp at h

theorem addToHistory_true_parts {m : Nat} {c file : PyStr}
    (h : (addToHistory m c file).1 = true) :
    c ≠ [] ∧ (addToHistory m c file).2
      = trimHistory m (c ++ NL ++ SEP ++ NL ++ file) := by
  unfold addToHistory at h ⊢
  by_cases h1 : c = []
  · rw [if_pos h1] at h
    simp at h
  · rw [if_neg h1] at h ⊢
    by_cases h2 : pySplit SEP file ≠ [] ∧
        pyStrip ((pySplit SEP file).headD []) = pyStrip c
    · rw [if_pos h2] at h
      simp at h
    · rw [if_neg h2]
      exact ⟨h1, rfl⟩

theorem addToHistory_false_of_dup {m : Nat} {c file : PyStr} (hc : c ≠ [])
    (hdup : pyStrip ((pySplit SEP file).headD []) = pyStrip c) :
    addToHistory m c file = (false, file) := by
  unfold addToHistory
  rw [if_neg hc, if_pos ⟨pySplit_ne_nil SEP file, hdup⟩]

/-- After a successful `add` of separator-free content `x`, the history
file splits into `x ++ "\n"` followed by the remaining blocks. -/
theorem addToHistory_true_split {x file : PyStr} (hx : pySplit SEP x = [x])
    (htrue : (addToHistory 5 x file).1 = true) :
    ∃ r, pySplit SEP ((addToHistory 5 x file).2) = (x ++ NL) :: r := by
  obtain ⟨hc, heq⟩ := addToHistory_true_parts htrue
  have hclean : pySplit SEP ((x ++ NL) ++ SEP) = [x ++ NL, []] := by
    have := pySplit_append_char SEP_ne_nil newline_not_mem_SEP x hx
    simpa [NL] using this
  have hassoc : x ++ NL ++ SEP ++ NL ++ file = (x ++ NL) ++ SEP ++ (NL ++ file) := by
    simp
  have hsplitNew : pySplit SEP (x ++ NL ++ SEP ++ NL ++ file)
      = (x ++ NL) :: pySplit SEP (NL ++ file) := by
    rw [hassoc]
    exact pySplit_prepend _ _ hclean
  rw [heq]
  unfold trimHistory
  by_cases hlen : 5 < (pySplit SEP (x ++ NL ++ SEP ++ NL ++ file)).length
  · simp only [if_pos hlen]
    have htakelen : ((pySplit SEP (x ++ NL ++ SEP ++ NL ++ file)).take 5).length = 5 := by
      rw [List.length_take]
      omega
    have htake : (pySplit SEP (x ++ NL ++ SEP ++ NL ++ file)).take 5 ≠ [] := by
      intro hnil
      rw [hnil] at htakelen
      simp at htakelen
    have hdroplen := List.length_drop 5 (pySplit SEP (x ++ NL ++ SEP ++ NL ++ file))
    have hdrop : (pySplit SEP (x ++ NL ++ SEP ++ NL ++ file)).drop 5 ≠ [] := by
      intro hnil
      have h0 : ((pySplit SEP (x ++ NL ++ SEP ++ NL ++ file)).drop 5).length = 0 := by
        rw [hnil]
        rfl
      rw [hdroplen] at h0
      omega
    have hjoin := pySplit_join_initial _ (x ++ NL ++ SEP ++ NL ++ file) _ htake hdrop
      (List.take_append_drop 5 _).symm
    rw [hjoin, hsplitNew, List.take_succ_cons]
    exact ⟨_, rfl⟩
  · simp only [if_neg hlen]
    exact ⟨_, hsplitNew⟩

theorem pyStrip_x_NL (x : PyStr) : pyStrip (x ++ NL) = pyStrip x :=
  pyStrip_append_space (by decide) x

theorem runOps_split_le :
    ∀ (ops : List HistOp) (file : PyStr), (pySplit SEP file).length ≤ 5 →
      (pySplit SEP (ops.foldl applyOp file)).length ≤ 5 := by
  intro ops
  induction ops with
  | nil => intro file h; exact h
  | cons op ops ih =>
    intro file h
    rw [List.foldl_cons]
    apply ih
    cases op with
    | add c =>
      have hb := addToHistory_split_le (m := 5) (by norm_num) c file
      exact le_trans hb (max_le (le_refl 5) h)
    | clear =>
      show (pySplit SEP ([] : PyStr)).length ≤ 5
      decide

/-! ## The claims -/

/-- C1: starting from an empty history, after every sequence of `add` and
`clear` operations the history file holds at most `max_entries = 5` blocks
and `list()` has length at most 5; in particular this holds after each
mutating operation of any such sequence. -/
theorem history_length_bounded (ops : List HistOp) :
    (pySplit SEP (runOps ops)).length ≤ 5 ∧ (fullEntries (runOps ops)).length ≤ 5 := by
  have h := runOps_split_le ops [] (by decide)
  exact ⟨h, le_trans (collectEntries_length_le _) h⟩

/-- C1 instance: the bound evaluated on a concrete operation sequence. -/
theorem history_length_bounded_witness :
    (pySplit SEP (runOps [HistOp.add ['A'], HistOp.clear, HistOp.add ['B']])).length ≤ 5
    ∧ (fullEntries (runOps [HistOp.add ['A'], HistOp.clear, HistOp.add ['B']])).length ≤ 5 :=
  history_length_bounded [HistOp.add ['A'], HistOp.clear, HistOp.add ['B']]

/-- C2 counterexample: with history `["hello"]`, `add("   ")` returns true
and changes the history file, so a whitespace-only add is not always
rejected. -/
theorem add_whitespace_cex :
    (addToHistory 5 [' ', ' ', ' '] ((addToHistory 5 ['h', 'e', 'l', 'l', 'o'] []).2)).1 = true
    ∧ (addToHistory 5 [' ', ' ', ' '] ((addToHistory 5 ['h', 'e', 'l', 'l', 'o'] []).2)).2
        ≠ (addToHistory 5 ['h', 'e', 'l', 'l', 'o'] []).2 := by
  decide

/-- C2 amended: `add("")` always returns false and leaves the history
unchanged; a whitespace-only `add` returns false with no mutation exactly
when the current head block is itself whitespace-only after trimming (as on
an empty history), and otherwise returns true and mutates the history. -/
theorem add_empty_whitespace (file ws : PyStr) (hws : pyStrip ws = []) :
    addToHistory 5 [] file = (false, file)
    ∧ (pyStrip ((pySplit SEP file).headD []) = [] →
        addToHistory 5 ws file = (false, file))
    ∧ (ws ≠ [] → pyStrip ((pySplit SEP file).headD []) ≠ [] →
        (addToHistory 5 ws file).1 = true ∧ (addToHistory 5 ws file).2 ≠ file) := by
  refine ⟨by unfold addToHistory; rw [if_pos rfl], ?_, ?_⟩
  · intro hhead
    by_cases hwsnil : ws = []
    · subst hwsnil
      unfold addToHistory
      rw [if_pos rfl]
    · exact addToHistory_false_of_dup hwsnil (by rw [hhead, hws])
  · intro hwsne hhead
    have htrue : (addToHistory 5 ws file).1 = true := by
      unfold addToHistory
      rw [if_neg hwsne, if_neg (fun hcond => hhead (hcond.2.trans hws))]
    refine ⟨htrue, ?_⟩
    intro heqfile
    have hsf : pySplit SEP ws = [ws] :=
      whitespace_sepfree ((pyStrip_eq_nil_iff ws).mp hws)
    obtain ⟨r, hsplit⟩ := addToHistory_true_split hsf htrue
    rw [heqfile] at hsplit
    apply hhead
    rw [hsplit]
    simp only [List.headD_cons]
    rw [pyStrip_x_NL]
    exact hws

/-- C2 witness: the amended statement evaluated at a concrete input. -/
theorem add_empty_whitespace_witness :
    addToHistory 5 [] [] = (false, [])
    ∧ (pyStrip ((pySplit SEP ([] : PyStr)).headD []) = [] →
        addToHistory 5 [' '] [] = (false, []))
    ∧ ([' '] ≠ ([] : PyStr) → pyStrip ((pySplit SEP ([] : PyStr)).headD []) ≠ [] →
        (addToHistory 5 [' '] []).1 = true ∧ (addToHistory 5 [' '] []).2 ≠ []) :=
  add_empty_whitespace [] [' '] (by decide)

/-- C3 counterexample: adding the separator token itself twice in a row
mutates the history twice; the second call also returns true. -/
theorem add_twice_separator_cex :
    (addToHistory 5 SEP ((addToHistory 5 SEP []).2)).1 = true
    ∧ (addToHistory 5 SEP ((addToHistory 5 SEP []).2)).2 ≠ (addToHistory 5 SEP []).2 := by
  decide

/-- C3 amended: for every history state and every content `x` that does not
contain the separator token, calling `add(x)` twice in a row mutates the
history at most once: the second call returns false and leaves the history
exactly as it was after the first call. -/
theorem add_idempotent (file x : PyStr) (hx : pySplit SEP x = [x]) :
    (addToHistory 5 x ((addToHistory 5 x file).2)).1 = false
    ∧ (addToHistory 5 x ((addToHistory 5 x file).2)).2 = (addToHistory 5 x file).2 := by
  by_cases h1 : (addToHistory 5 x file).1 = true
  · obtain ⟨hc, -⟩ := addToHistory_true_parts h1
    obtain ⟨r, hsplit1⟩ := addToHistory_true_split hx h1
    have hdup : pyStrip ((pySplit SEP ((addToHistory 5 x file).2)).headD [])
        = pyStrip x := by
      rw [hsplit1]
      simp only [List.headD_cons]
      exact pyStrip_x_NL x
    have hres := addToHistory_false_of_dup (m := 5) hc hdup
    rw [hres]
    exact ⟨rfl, rfl⟩
  · have h1' : (addToHistory 5 x file).1 = false := by
      cases hb : (addToHistory 5 x file).1
      · rfl
      · exact absurd hb h1
    have heq := addToHistory_false_state h1'
    have hf2 : (addToHistory 5 x file).2 = file := by rw [heq]
    rw [hf2]
    exact ⟨h1', hf2⟩

/-- C3 witness: idempotence evaluated at a concrete separator-free input. -/
theorem add_idempotent_witness :
    (addToHistory 5 ['h', 'i'] ((addToHistory 5 ['h', 'i'] []).2)).1 = false
    ∧ (addToHistory 5 ['h', 'i'] ((addToHistory 5 ['h', 'i'] []).2)).2
        = (addToHistory 5 ['h', 'i'] []).2 :=
  add_idempotent [] ['h', 'i'] (by decide)

set_option maxRecDepth 4000 in
/-- C4: six distinct adds A,B,C,D,E,F on an empty history with
`max_entries = 5` leave `list() = [F,E,D,C,B]`; the oldest entry A has been
evicted and the rest are most-recent-first. -/
theorem eviction_keeps_newest_five :
    fullEntries (runOps [HistOp.add ['A'], HistOp.add ['B'], HistOp.add ['C'],
        HistOp.add ['D'], HistOp.add ['E'], HistOp.add ['F']])
      = [['F'], ['E'], ['D'], ['C'], ['B']] := by
  decide

/-- C7 counterexample: `add("a ")` on an empty history succeeds, yet
`list()[0]` is the trimmed `"a"`, not the verbatim `"a "`. -/
theorem add_verbatim_cex :
    (addToHistory 5 ['a', ' '] []).1 = true
    ∧ (fullEntries ((addToHistory 5 ['a', ' '] []).2)).head? ≠ some ['a', ' '] := by
  decide

/-- C7 amended: if `x` contains no separator token, trims to something
non-empty, and `add(x)` succeeds, then `list()[0]` is `x` stripped of
surrounding whitespace (the stored entry is presented trimmed, not
verbatim). -/
theorem add_success_head (file x : PyStr) (hx : pySplit SEP x = [x])
    (hs : pyStrip x ≠ []) (htrue : (addToHistory 5 x file).1 = true) :
    (fullEntries ((addToHistory 5 x file).2)).head? = some (pyStrip x) := by
  obtain ⟨r, hsplit1⟩ := addToHistory_true_split hx htrue
  unfold fullEntries
  rw [hsplit1]
  simp only [collectEntries, pyStrip_x_NL]
  rw [if_pos hs]
  rfl

/-- C7 witness: the amended statement evaluated at a concrete input. -/
theorem add_success_head_witness :
    (fullEntries ((addToHistory 5 ['h', 'i'] []).2)).head? = some (pyStrip ['h', 'i']) :=
  add_success_head [] ['h', 'i'] (by decide) (by decide) (by decide)

/-- C8: a 1-based selection `i` with `1 <= i <= n` returns exactly
`list()[i-1]`, and any `i < 1` or `i > n` (in particular `0` and `n+1`)
is rejected with nothing copied. -/
theorem selectEntry_spec (entries : List PyStr) (i : Int) :
    ((1 ≤ i ∧ i ≤ (entries.length : Int)) →
      selectEntry entries i = entries[(i - 1).toNat]? ∧ (i - 1).toNat < entries.length)
    ∧ ((i < 1 ∨ (entries.length : Int) < i) → selectEntry entries i = none) := by
  constructor
  · rintro ⟨h1, h2⟩
    unfold selectEntry
    rw [if_pos ⟨by omega, by omega⟩]
    exact ⟨rfl, by omega⟩
  · intro h
    unfold selectEntry
    rw [if_neg (by omega)]

/-- C8 witness: selection evaluated at a valid and an invalid index. -/
theorem selectEntry_spec_witness :
    (selectEntry [['a'], ['b']] 2 = [['a'], ['b']][((2 : Int) - 1).toNat]?
      ∧ ((2 : Int) - 1).toNat < ([['a'], ['b']] : List PyStr).length)
    ∧ selectEntry [['a'], ['b']] 3 = none :=
  ⟨(selectEntry_spec [['a'], ['b']] 2).1 (by decide),
   (selectEntry_spec [['a'], ['b']] 3).2 (by decide)⟩

/-- C9: the clipboard read is total over all outcomes of the subprocess
call and returns the empty string on a non-zero exit code, a subprocess
error, or a timeout, making a failed read indistinguishable from reading
an empty clipboard. -/
theorem getClipboardContent_total (o : ReadOutcome) :
    (∀ rc out, o = ReadOutcome.completed rc out → rc ≠ 0 → getClipboardContent o = [])
    ∧ getClipboardContent ReadOutcome.subprocessError = []
    ∧ getClipboardContent ReadOutcome.timeoutExpired = []
    ∧ getClipboardContent ReadOutcome.subprocessError
        = getClipboardContent (ReadOutcome.completed 0 [])
    ∧ getClipboardContent ReadOutcome.timeoutExpired
        = getClipboardContent (ReadOutcome.completed 0 []) := by
  refine ⟨?_, rfl, rfl, by decide, by decide⟩
  rintro rc out rfl hrc
  simp [getClipboardContent, hrc]

/-- C9 witness: a non-zero exit code yields the empty string. -/
theorem getClipboardContent_total_witness :
    getClipboardContent (ReadOutcome.completed 1 ['a']) = [] :=
  (getClipboardContent_total (ReadOutcome.completed 1 ['a'])).1 1 ['a'] rfl (by decide)

/-- C10: `list()` presents every stored block stripped of surrounding
whitespace and omits whitespace-only blocks entirely, so the empty string
never appears among the listed entries. -/
theorem fullEntries_strip_filter (file : PyStr) :
    fullEntries file = ((pySplit SEP file).map pyStrip).filter (fun e => !e.isEmpty)
    ∧ [] ∉ fullEntries file := by
  refine ⟨collectEntries_eq_filter _, ?_⟩
  intro hmem
  unfold fullEntries at hmem
  rw [collectEntries_eq_filter] at hmem
  have hp := List.of_mem_filter hmem
  simp at hp

/-- C10 witness: the characterization evaluated on a file holding a padded
entry and a whitespace-only block. -/
theorem fullEntries_strip_filter_witness :
    fullEntries ([' ', 'a', ' '] ++ SEP ++ [' ', ' '])
      = ((pySplit SEP ([' ', 'a', ' '] ++ SEP ++ [' ', ' '])).map pyStrip).filter
          (fun e => !e.isEmpty)
    ∧ [] ∉ fullEntries ([' ', 'a', ' '] ++ SEP ++ [' ', ' ']) :=
  fullEntries_strip_filter ([' ', 'a', ' '] ++ SEP ++ [' ', ' '])

/-! ## The monitor loop -/

theorem runMonitor_of_stopped {s : MonState} (h : s.stopped = true) :
    ∀ evs, runMonitor s evs = s := by
  intro evs
  induction evs with
  | nil => rfl
  | cons ev evs ih =>
    have hstep : monitorStep s ev = s := by
      unfold monitorStep
      rw [if_pos h]
    show runMonitor (monitorStep s ev) evs = s
    rw [hstep]
    exact ih

theorem monitorTick_parts (s : MonState) (c : PyStr) :
    ((monitorTick s c).2 = true ↔ (c ≠ [] ∧ c ≠ s.lastContent))
    ∧ (monitorTick s c).1.lastContent
        = (if c ≠ [] ∧ c ≠ s.lastContent then c else s.lastContent)
    ∧ (monitorTick s c).1.retryCount = 0
    ∧ (monitorTick s c).1.stopped = s.stopped := by
  unfold monitorTick
  by_cases hcond : c ≠ [] ∧ c ≠ s.lastContent
  · simp [hcond]
  · simp [hcond]

theorem monitor_stop_aux :
    ∀ (evs : List TickEvent) (s : MonState) (r : Nat),
      s.retryCount = r → s.stopped = false → r < 5 →
      ((runMonitor s evs).stopped = true ↔
        (∃ n, n + r = 5 ∧ ∀ j, j < n → evs[j]? = some TickEvent.exnDuringRead)
        ∨ stopWindow evs) := by
  intro evs
  induction evs with
  | nil =>
    intro s r hsr hs hr
    constructor
    · intro h
      have hrn : runMonitor s [] = s := rfl
      rw [hrn, hs] at h
      simp at h
    · rintro (⟨n, hn, hj⟩ | ⟨i, e, hie, -, -⟩)
      · have h0 := hj 0 (by omega)
        simp at h0
      · simp at hie
  | cons ev evs ih =>
    intro s r hsr hs hr
    have hrun : runMonitor s (ev :: evs) = runMonitor (monitorStep s ev) evs := rfl
    cases ev with
    | read o =>
      have hstepdef : monitorStep s (TickEvent.read o)
          = (monitorTick s (getClipboardContent o)).1 := by
        unfold monitorStep
        rw [if_neg (by rw [hs]; simp)]
      have hparts := monitorTick_parts s (getClipboardContent o)
      have hiff := ih (monitorTick s (getClipboardContent o)).1 0 hparts.2.2.1
        (hparts.2.2.2.trans hs) (by omega)
      rw [hrun, hstepdef, hiff]
      constructor
      · rintro (⟨n, hn, hj⟩ | ⟨i, e, hie, hexn, hj⟩)
        · refine Or.inr ⟨1, TickEvent.exnDuringRead, ?_, Or.inl rfl, ?_⟩
          · have := hj 0 (by omega)
            simpa using this
          · intro j hj4
            have := hj (1 + j) (by omega)
            rw [show 1 + 1 + j = (1 + j) + 1 by omega, List.getElem?_cons_succ]
            exact this
        · refine Or.inr ⟨i + 1, e, ?_, hexn, ?_⟩
          · rw [List.getElem?_cons_succ]
            exact hie
          · intro j hj4
            have := hj j hj4
            rw [show i + 1 + 1 + j = (i + 1 + j) + 1 by omega, List.getElem?_cons_succ]
            exact this
      · rintro (⟨n, hn, hj⟩ | ⟨i, e, hie, hexn, hj⟩)
        · have h0 := hj 0 (by omega)
          simp at h0
        · cases i with
          | zero =>
            have he : TickEvent.read o = e := by simpa using hie
            rcases hexn with h1 | ⟨f, h2⟩
            · rw [← he] at h1
              exact absurd h1 (by simp)
            · rw [← he] at h2
              exact absurd h2 (by simp)
          | succ i2 =>
            refine Or.inr ⟨i2, e, ?_, hexn, ?_⟩
            · rw [List.getElem?_cons_succ] at hie
              exact hie
            · intro j hj4
              have := hj j hj4
              rw [show i2 + 1 + 1 + j = (i2 + 1 + j) + 1 by omega,
                List.getElem?_cons_succ] at this
              exact this
    | exnDuringRead =>
      by_cases h5 : 5 ≤ r + 1
      · have hstep : monitorStep s TickEvent.exnDuringRead
            = { s with retryCount := s.retryCount + 1, stopped := true } := by
          unfold monitorStep
          rw [if_neg (by rw [hs]; simp), hsr, if_pos h5, ← hsr]
        rw [hrun, hstep,
          runMonitor_of_stopped
            (s := { s with retryCount := s.retryCount + 1, stopped := true }) rfl evs]
        constructor
        · intro _
          refine Or.inl ⟨1, by omega, fun j hj1 => ?_⟩
          have hj0 : j = 0 := by omega
          rw [hj0]
          simp
        · intro _
          rfl
      · have hstep : monitorStep s TickEvent.exnDuringRead
            = { s with retryCount := s.retryCount + 1 } := by
          unfold monitorStep
          rw [if_neg (by rw [hs]; simp), hsr, if_neg h5, ← hsr]
        have hiff := ih { s with retryCount := s.retryCount + 1 } (r + 1)
          (by rw [show ({ s with retryCount := s.retryCount + 1 } : MonState).retryCount
            = s.retryCount + 1 from rfl, hsr]) hs (by omega)
        rw [hrun, hstep, hiff]
        constructor
        · rintro (⟨n, hn, hj⟩ | ⟨i, e, hie, hexn, hj⟩)
          · refine Or.inl ⟨n + 1, by omega, fun j hjn => ?_⟩
            cases j with
            | zero => simp
            | succ j2 =>
              rw [List.getElem?_cons_succ]
              exact hj j2 (by omega)
          · refine Or.inr ⟨i + 1, e, ?_, hexn, ?_⟩
            · rw [List.getElem?_cons_succ]
              exact hie
            · intro j hj4
              have := hj j hj4
              rw [show i + 1 + 1 + j = (i + 1 + j) + 1 by omega, List.getElem?_cons_succ]
              exact this
        · rintro (⟨n, hn, hj⟩ | ⟨i, e, hie, hexn, hj⟩)
          · refine Or.inl ⟨n - 1, by omega, fun j hjn => ?_⟩
            have := hj (j + 1) (by omega)
            rw [List.getElem?_cons_succ] at this
            exact this
          · cases i with
            | zero =>
              refine Or.inl ⟨4 - r, by omega, fun j hjn => ?_⟩
              have := hj j (by omega)
              rw [show (0 : Nat) + 1 + j = j + 1 by omega, List.getElem?_cons_succ] at this
              exact this
            | succ i2 =>
              refine Or.inr ⟨i2, e, ?_, hexn, ?_⟩
              · rw [List.getElem?_cons_succ] at hie
                exact hie
              · intro j hj4
                have := hj j hj4
                rw [show i2 + 1 + 1 + j = (i2 + 1 + j) + 1 by omega,
                  List.getElem?_cons_succ] at this
                exact this
    | exnAfterRead f2 =>
      have hstep : monitorStep s (TickEvent.exnAfterRead f2)
          = { s with retryCount := 0 + 1, file := f2 } := by
        simp [monitorStep, hs]
      have hiff := ih { s with retryCount := 0 + 1, file := f2 } 1 rfl hs (by omega)
      rw [hrun, hstep, hiff]
      constructor
      · rintro (⟨n, hn, hj⟩ | ⟨i, e, hie, hexn, hj⟩)
        · refine Or.inr ⟨0, TickEvent.exnAfterRead f2, by simp, Or.inr ⟨f2, rfl⟩, ?_⟩
          intro j hj4
          have := hj j (by omega)
          rw [show (0 : Nat) + 1 + j = j + 1 by omega, List.getElem?_cons_succ]
          exact this
        · refine Or.inr ⟨i + 1, e, ?_, hexn, ?_⟩
          · rw [List.getElem?_cons_succ]
            exact hie
          · intro j hj4
            have := hj j hj4
            rw [show i + 1 + 1 + j = (i + 1 + j) + 1 by omega, List.getElem?_cons_succ]
            exact this
      · rintro (⟨n, hn, hj⟩ | ⟨i, e, hie, hexn, hj⟩)
        · have h0 := hj 0 (by omega)
          simp at h0
        · cases i with
          | zero =>
            refine Or.inl ⟨4, by omega, fun j hjn => ?_⟩
            have := hj j (by omega)
            rw [show (0 : Nat) + 1 + j = j + 1 by omega, List.getElem?_cons_succ] at this
            exact this
          | succ i2 =>
            refine Or.inr ⟨i2, e, ?_, hexn, ?_⟩
            · rw [List.getElem?_cons_succ] at hie
              exact hie
            · intro j hj4
              have := hj j hj4
              rw [show i2 + 1 + 1 + j = (i2 + 1 + j) + 1 by omega,
                List.getElem?_cons_succ] at this
              exact this

/-- C5 counterexample: five consecutive clipboard read failures (timeouts),
which `get_clipboard_content` swallows into empty strings, leave the
monitor running with a zero consecutive-failure counter instead of
stopping it with the too-many-errors condition. -/
theorem monitor_read_failure_cex :
    (runMonitor (initMonState [])
      [TickEvent.read ReadOutcome.timeoutExpired, TickEvent.read ReadOutcome.timeoutExpired,
       TickEvent.read ReadOutcome.timeoutExpired, TickEvent.read ReadOutcome.timeoutExpired,
       TickEvent.read ReadOutcome.timeoutExpired]).stopped = false
    ∧ (runMonitor (initMonState [])
      [TickEvent.read ReadOutcome.timeoutExpired, TickEvent.read ReadOutcome.timeoutExpired,
       TickEvent.read ReadOutcome.timeoutExpired, TickEvent.read ReadOutcome.timeoutExpired,
       TickEvent.read ReadOutcome.timeoutExpired]).retryCount = 0 := by
  decide

/-- C5 amended: the counter counts iterations whose exception escapes into
the monitor's own handler, not clipboard read failures: a completed read -
including a swallowed timeout, subprocess error or non-zero exit, which
comes back as an empty string - resets the counter to zero, leaves
last-observed content and the file untouched when empty, and never stops
the loop.  An exception from the clipboard call itself increments the
counter from its previous value and stops the loop exactly when it reaches
`max_retries = 5`; an exception raised after a completed read increments
the just-reset counter to one and never stops the loop by itself.  Hence
the monitor stops exactly when some iteration with an escaped exception is
followed by four consecutive clipboard-call exceptions. -/
theorem monitor_stop_amended :
    (∀ (f : PyStr) (evs : List TickEvent),
      (runMonitor (initMonState f) evs).stopped = true ↔ stopWindow evs)
    ∧ (∀ (s : MonState) (o : ReadOutcome), s.stopped = false →
        (monitorStep s (TickEvent.read o)).retryCount = 0
        ∧ (monitorStep s (TickEvent.read o)).stopped = false)
    ∧ (∀ (s : MonState) (o : ReadOutcome), s.stopped = false →
        getClipboardContent o = [] →
        (monitorStep s (TickEvent.read o)).lastContent = s.lastContent
        ∧ (monitorStep s (TickEvent.read o)).file = s.file)
    ∧ (∀ s : MonState, s.stopped = false →
        (monitorStep s TickEvent.exnDuringRead).retryCount = s.retryCount + 1
        ∧ ((monitorStep s TickEvent.exnDuringRead).stopped = true ↔ 5 ≤ s.retryCount + 1))
    ∧ (∀ (s : MonState) (f2 : PyStr), s.stopped = false →
        (monitorStep s (TickEvent.exnAfterRead f2)).retryCount = 1
        ∧ (monitorStep s (TickEvent.exnAfterRead f2)).stopped = false) := by
  refine ⟨?_, ?_, ?_, ?_, ?_⟩
  · intro f evs
    have h := monitor_stop_aux evs (initMonState f) 0 rfl rfl (by omega)
    rw [h]
    constructor
    · rintro (⟨n, hn, hj⟩ | hw)
      · refine ⟨0, TickEvent.exnDuringRead, ?_, Or.inl rfl, ?_⟩
        · have := hj 0 (by omega)
          simpa using this
        · intro j hj4
          have := hj (1 + j) (by omega)
          rw [show (0 : Nat) + 1 + j = 1 + j by omega]
          exact this
      · exact hw
    · exact fun hw => Or.inr hw
  · intro s o hs
    have hstepdef : monitorStep s (TickEvent.read o)
        = (monitorTick s (getClipboardContent o)).1 := by
      unfold monitorStep
      rw [if_neg (by rw [hs]; simp)]
    have hparts := monitorTick_parts s (getClipboardContent o)
    rw [hstepdef]
    exact ⟨hparts.2.2.1, hparts.2.2.2.trans hs⟩
  · intro s o hs ho
    have hstepdef : monitorStep s (TickEvent.read o)
        = (monitorTick s (getClipboardContent o)).1 := by
      unfold monitorStep
      rw [if_neg (by rw [hs]; simp)]
    rw [hstepdef]
    unfold monitorTick
    rw [ho]
    simp
  · intro s hs
    by_cases h5 : 5 ≤ s.retryCount + 1
    · constructor
      · simp [monitorStep, hs, h5]
      · simp [monitorStep, hs, h5]
    · constructor
      · simp [monitorStep, hs, h5]
      · simp [monitorStep, hs, h5]
  · intro s f2 hs
    constructor
    · simp [monitorStep, hs]
    · simp [monitorStep, hs]

/-- C5 witness: five consecutive clipboard-call exceptions do stop the
monitor. -/
theorem monitor_stop_amended_witness :
    (runMonitor (initMonState []) [TickEvent.exnDuringRead, TickEvent.exnDuringRead,
      TickEvent.exnDuringRead, TickEvent.exnDuringRead,
      TickEvent.exnDuringRead]).stopped = true :=
  (monitor_stop_amended.1 [] _).mpr
    ⟨0, TickEvent.exnDuringRead, by decide, Or.inl rfl, by decide⟩

/-- C6 counterexample: with last-observed content `"a"`, a successful read
of `"a "` is trimmed-equal to it yet `add_to_history` is still called; and
with last-observed `"x"`, a successful read of `""` does not update the
last-observed content. -/
theorem monitor_tick_cex :
    pyStrip ['a', ' '] = pyStrip ((⟨['a'], 0, [], false⟩ : MonState).lastContent)
    ∧ (monitorTick ⟨['a'], 0, [], false⟩ ['a', ' ']).2 = true
    ∧ (monitorTick ⟨['x'], 0, [], false⟩ []).1.lastContent ≠ [] := by
  decide

/-- C6 amended: on a tick with a successful read of `c` the monitor calls
`add_to_history` iff `c` is non-empty and differs exactly (not under
trimming) from the last-observed content, and it updates the last-observed
content precisely in that same case, leaving it unchanged otherwise. -/
theorem monitor_tick_amended (s : MonState) (c : PyStr) :
    ((monitorTick s c).2 = true ↔ (c ≠ [] ∧ c ≠ s.lastContent))
    ∧ (monitorTick s c).1.lastContent
        = (if c ≠ [] ∧ c ≠ s.lastContent then c else s.lastContent) := by
  unfold monitorTick
  by_cases hcond : c ≠ [] ∧ c ≠ s.lastContent
  · simp [hcond]
  · simp [hcond]

/-- C6 witness: the amended tick behaviour at a concrete state and read. -/
theorem monitor_tick_amended_witness :
    ((monitorTick ⟨['a'], 0, [], false⟩ ['b']).2 = true
      ↔ (['b'] ≠ ([] : PyStr) ∧ ['b'] ≠ (⟨['a'], 0, [], false⟩ : MonState).lastContent))
    ∧ (monitorTick ⟨['a'], 0, [], false⟩ ['b']).1.lastContent
        = (if ['b'] ≠ ([] : PyStr) ∧ ['b'] ≠ (⟨['a'], 0, [], false⟩ : MonState).lastContent
            then ['b'] else (⟨['a'], 0, [], false⟩ : MonState).lastContent) :=
  monitor_tick_amended ⟨['a'], 0, [], false⟩ ['b']
